import Mathlib

/-!
Job Hunter backend: keyword classifier, text normalizer, ingestion report, pagination.

A shallow embedding of `backend/models/job.go`, `backend/scrapers/remoteok.go`
and the arithmetic of `backend/main.go`.

Go strings are modelled as lists of Unicode code points (`List Char`).  All strings
handled by the program are produced by `encoding/json` or by string literals, hence
valid UTF-8; every byte-level operation the program uses (`strings.Index` on an ASCII
needle, slicing at the positions of ASCII bytes) then coincides with the same
operation on code points.
-/

namespace JobHunter

/-- A Go string, as its sequence of code points. -/
abbrev GoString := List Char

/-! ## The `strings` package -/

/-- Go `strings.HasPrefix`. -/
def HasPrefix (s pre : GoString) : Bool := pre.isPrefixOf s

/-- Go `strings.Index`: the position of the first occurrence of `substr` in `s`,
or `-1` when there is none. -/
def Index : GoString → GoString → Int
  | [], substr => if substr = [] then 0 else -1
  | c :: cs, substr =>
    if HasPrefix (c :: cs) substr then 0
    else
      let r := Index cs substr
      if r < 0 then -1 else r + 1

/-- Go `strings.Contains`, which is `Index(s, substr) >= 0`. -/
def Contains (s substr : GoString) : Bool := decide (0 ≤ Index s substr)

/-- Go `unicode.ToLower`: ASCII is handled by arithmetic on the letter range, every
other rune goes through the Unicode case tables, which are the parameter `caseTable`. -/
def toLowerRune (caseTable : Char → Char) (r : Char) : Char :=
  if r.toNat ≤ 127 then
    if 'A'.toNat ≤ r.toNat ∧ r.toNat ≤ 'Z'.toNat then Char.ofNat (r.toNat + 32) else r
  else caseTable r

/-- Go `strings.ToLower`: every rune mapped through `unicode.ToLower`. -/
def ToLower (caseTable : Char → Char) (s : GoString) : GoString :=
  s.map (toLowerRune caseTable)

/-- Go `strings.Join`. -/
def Join : List GoString → GoString → GoString
  | [], _ => []
  | [a], _ => a
  | a :: b :: rest, sep => a ++ sep ++ Join (b :: rest) sep

/-! ## `models.Job` -/

/-- The struct `models.Job`; instants are kept as numbers. -/
structure Job where
  ID : Nat
  Title : GoString
  Company : GoString
  Description : GoString
  Location : GoString
  Salary : GoString
  URL : GoString
  Source : GoString
  Remote : Bool
  Keywords : GoString
  HasKeywords : Bool
  CreatedAt : Int
  UpdatedAt : Int
  deriving DecidableEq, Repr

/-- The vocabulary literal of `CheckKeywords`. -/
def targetKeywords : List GoString :=
  ["flutter".toList, "laravel".toList, "golang".toList, "go".toList]

/-- The text `CheckKeywords` searches in. -/
def searchText (caseTable : Char → Char) (j : Job) : GoString :=
  ToLower caseTable (j.Title ++ " ".toList ++ j.Description ++ " ".toList ++ j.Company)

/-- The `for _, keyword := range targetKeywords` loop of `CheckKeywords`. -/
def foundKeywords (caseTable : Char → Char) (text : GoString) : List GoString :=
  targetKeywords.foldl
    (fun found keyword =>
      if Contains text (ToLower caseTable keyword) then found ++ [keyword] else found)
    []

/-- The method `Job.CheckKeywords`; the receiver is updated in place, here returned. -/
def Job.CheckKeywords (caseTable : Char → Char) (j : Job) : Job :=
  let found := foundKeywords caseTable (searchText caseTable j)
  if found.length > 0 then
    { j with HasKeywords := true, Keywords := Join found ",".toList }
  else
    { j with HasKeywords := false, Keywords := [] }

/-- Go `strings.ReplaceAll` for a non-empty `old`: the loop of `strings.Replace` that
copies the text before the next occurrence, writes `new`, and resumes after the
occurrence.  The counter bounds the number of replacements, as `n` does in Go. -/
def replaceFrom (old new : GoString) : Nat → GoString → GoString
  | 0, s => s
  | n + 1, s =>
    let j := Index s old
    if j < 0 then s
    else s.take j.toNat ++ new ++ replaceFrom old new n (s.drop (j.toNat + old.length))

/-- Go `strings.ReplaceAll`.  An empty `old` matches before every rune and at the end;
otherwise occurrences are replaced left to right without overlap, and a string of
length `k` holds at most `k` of them. -/
def ReplaceAll (s old new : GoString) : GoString :=
  if old = new then s
  else if old = [] then new ++ s.flatMap (fun c => c :: new)
  else replaceFrom old new s.length s

/-- Go `unicode.IsSpace`: the Latin-1 switch, then the `White_Space` table. -/
def IsSpace (r : Char) : Bool :=
  let n := r.toNat
  if n ≤ 0xFF then
    n = 0x09 || n = 0x0A || n = 0x0B || n = 0x0C || n = 0x0D || n = 0x20 || n = 0x85 || n = 0xA0
  else
    n = 0x1680 || (0x2000 ≤ n && n ≤ 0x200A) || n = 0x2028 || n = 0x2029 || n = 0x202F
      || n = 0x205F || n = 0x3000

/-- Go `strings.TrimSpace`: leading, then trailing, white space removed. -/
def TrimSpace (s : GoString) : GoString :=
  ((s.dropWhile IsSpace).reverse.dropWhile IsSpace).reverse

/-- A Go slice expression `s[lo:hi]`; `none` is the run-time panic for indices out of
range. -/
def slice (s : GoString) (lo hi : Int) : Option GoString :=
  if 0 ≤ lo ∧ lo ≤ hi ∧ hi ≤ (s.length : Int) then some ((s.take hi.toNat).drop lo.toNat)
  else none

/-! ## `scrapers.cleanDescription` -/

/-- How a run of the model can fail to return a string. -/
inductive Fault where
  | sliceOutOfRange
  | outOfFuel
  deriving DecidableEq, Repr

/-- One evaluation of the loop condition and body of the tag-stripping loop:
`.ok none` when the loop is left (condition false, or `break`), `.ok (some d)` when the
body assigned `d` and the loop goes round again. -/
def stripStep (description : GoString) : Except Fault (Option GoString) :=
  if Contains description ['<'] && Contains description ['>'] then
    let start := Index description ['<']
    let stop := Index description ['>']
    if start < stop then
      match slice description 0 start, slice description (stop + 1) description.length with
      | some a, some b => .ok (some (a ++ b))
      | _, _ => .error .sliceOutOfRange
    else .ok none
  else .ok none

/-- The tag-stripping `for` loop; `fuel` bounds the number of times the body runs. -/
def stripTags (fuel : Nat) (description : GoString) : Except Fault GoString :=
  match stripStep description with
  | .error e => .error e
  | .ok none => .ok description
  | .ok (some d) =>
    match fuel with
    | 0 => .error .outOfFuel
    | n + 1 => stripTags n d

/-- The six literal replacements that open `cleanDescription`. -/
def replaceCommonTags (description : GoString) : GoString :=
  let description := ReplaceAll description "<br>".toList "\n".toList
  let description := ReplaceAll description "<br/>".toList "\n".toList
  let description := ReplaceAll description "<p>".toList "".toList
  let description := ReplaceAll description "</p>".toList "\n".toList
  let description := ReplaceAll description "<div>".toList "".toList
  ReplaceAll description "</div>".toList "\n".toList

/-- The function `cleanDescription`. -/
def cleanDescription (fuel : Nat) (description : GoString) : Except Fault GoString :=
  match stripTags fuel (replaceCommonTags description) with
  | .error e => .error e
  | .ok description =>
    let description := ReplaceAll description "\n\n\n".toList "\n\n".toList
    .ok (TrimSpace description)

/-! ## `RemoteOKScraper.ScrapeAndFilter` -/

/-- The filtering loop of `ScrapeAndFilter`: `job` is a copy of the element, classified
and appended when it has keywords. -/
def filterJobs (caseTable : Char → Char) (allJobs : List Job) : List Job :=
  allJobs.foldl
    (fun filteredJobs job =>
      let job := job.CheckKeywords caseTable
      if job.HasKeywords then filteredJobs ++ [job] else filteredJobs)
    []

/-- The method `ScrapeAndFilter`, given what `ScrapeJobs` returned. -/
def ScrapeAndFilter (caseTable : Char → Char) (scraped : Except GoString (List Job)) :
    Except GoString (List Job) :=
  match scraped with
  | .error err => .error err
  | .ok allJobs => .ok (filterJobs caseTable allJobs)

/-! ## `main.go`: duplicate detection, the scrape report, pagination -/

/-- The function `containsString` of `main.go`. -/
def containsString (slice item : GoString) : Bool :=
  decide (slice.length > 0) && decide (item.length > 0) &&
    (decide (slice = item) ||
     (decide (slice.length > item.length) && decide (slice.take item.length = item)) ||
     (decide (slice.length > item.length) &&
        decide (slice.drop (slice.length - item.length) = item)))

/-- The text looked for in an insertion error. -/
def uniqueFailed : GoString := "UNIQUE constraint failed".toList

/-- The loop state of `scrapeJobs`: `savedCount` and `errors`. -/
structure SaveState where
  savedCount : Int
  errors : List GoString
  deriving DecidableEq, Repr

/-- One round of the saving loop, given what `database.CreateJob` returned for the job
(`none` is a nil error). -/
def saveStep (st : SaveState) (err : Option GoString) : SaveState :=
  match err with
  | some msg =>
    if !containsString msg uniqueFailed then { st with errors := st.errors ++ [msg] }
    else st
  | none => { st with savedCount := st.savedCount + 1 }

/-- The report `scrapeJobs` sends. -/
structure ScrapeReport where
  scraped : Int
  saved : Int
  duplicates : Int
  errors : List GoString
  deriving DecidableEq, Repr

/-- The part of `scrapeJobs` after a successful scrape: every job is paired with the
error its insertion returns.  Both counters stay below `len(jobs)`, so the `int`
arithmetic of the report does not overflow. -/
def scrapeJobs (jobs : List (Job × Option GoString)) : ScrapeReport :=
  let st := jobs.foldl (fun st p => saveStep st p.2) { savedCount := 0, errors := [] }
  { scraped := jobs.length
    saved := st.savedCount
    duplicates := (jobs.length : Int) - st.savedCount - (st.errors.length : Int)
    errors := st.errors }

/-- A value reduced to the range of Go `int64` (two's complement). -/
def wrapInt64 (x : Int) : Int := (x + 2 ^ 63) % 2 ^ 64 - 2 ^ 63

/-- The limit after the range check of `getJobs` and `searchJobs`. -/
def effectiveLimit (limit : Int) : Int :=
  if limit < 1 ∨ limit > 100 then 20 else limit

/-- The expression `(total + int64(limit) - 1) / int64(limit)` of `getJobs` and
`searchJobs`, after the range check; `none` is the panic of a division by zero. -/
def pages (total limit : Int) : Option Int :=
  let limit := effectiveLimit limit
  if limit = 0 then none
  else some (wrapInt64 (Int.tdiv (wrapInt64 (wrapInt64 (total + limit) - 1)) limit))

/-! ## Helpers for the statements about brackets -/

/-- Whether a rune is an angle bracket. -/
def isBracket (c : Char) : Bool := c == '<' || c == '>'

/-- The angle brackets of a string, in order. -/
def brackets (s : GoString) : GoString := s.filter isBracket

/-- The bracket sequences on which the tag-stripping loop is left: a string whose
first bracket is `<` has no `>` at all. -/
def exitShape (l : GoString) : Prop := ∀ rest, l = '<' :: rest → '>' ∉ rest

/-! ## Lemmas on the string primitives -/

theorem Index_ge_neg_one (s substr : GoString) : -1 ≤ Index s substr := by
  induction s with
  | nil => unfold Index; split <;> simp
  | cons c cs ih =>
    unfold Index
    split
    · simp
    · simp only []
      split <;> omega

theorem Index_nonneg_iff (s substr : GoString) : 0 ≤ Index s substr ↔ substr <:+: s := by
  induction s with
  | nil =>
    unfold Index
    by_cases h : substr = []
    · simp [h]
    · simp [h]
  | cons c cs ih =>
    unfold Index
    rw [List.infix_cons_iff]
    by_cases hp : HasPrefix (c :: cs) substr = true
    · simp only [hp, if_true]
      simp only [HasPrefix, List.isPrefixOf_iff_prefix] at hp
      simp [hp]
    · simp only [hp]
      have hp2 : ¬ substr <+: c :: cs := by
        simpa [HasPrefix, List.isPrefixOf_iff_prefix] using hp
      simp only [hp2, false_or, Bool.false_eq_true, if_false]
      rw [← ih]
      have := Index_ge_neg_one cs substr
      split <;> omega

theorem Contains_iff (s substr : GoString) : Contains s substr = true ↔ substr <:+: s := by
  simp [Contains, Index_nonneg_iff]

/-! ## The keyword classifier -/

theorem foldl_append_if {α : Type} (p : α → Bool) (l : List α) (init : List α) :
    l.foldl (fun acc k => if p k then acc ++ [k] else acc) init = init ++ l.filter p := by
  induction l generalizing init with
  | nil => simp
  | cons a l ih =>
    simp only [List.foldl_cons, ih, List.filter_cons]
    by_cases h : p a = true <;> simp [h]

theorem ToLower_targetKeywords (caseTable : Char → Char) :
    ∀ k ∈ targetKeywords, ToLower caseTable k = k := by
  intro k hk
  simp only [targetKeywords, List.mem_cons, List.mem_singleton, List.not_mem_nil, or_false] at hk
  rcases hk with rfl | rfl | rfl | rfl <;> rfl

theorem foundKeywords_eq_filter (caseTable : Char → Char) (text : GoString) :
    foundKeywords caseTable text = targetKeywords.filter (fun k => decide (k <:+: text)) := by
  unfold foundKeywords
  rw [foldl_append_if (fun k => Contains text (ToLower caseTable k)) targetKeywords []]
  simp only [List.nil_append]
  apply List.filter_congr
  intro k hk
  rw [ToLower_targetKeywords caseTable k hk]
  rw [Bool.eq_iff_iff]
  simp [Contains_iff]

theorem Join_ne_nil (a : GoString) (rest : List GoString) (sep : GoString) (ha : a ≠ []) :
    Join (a :: rest) sep ≠ [] := by
  cases rest with
  | nil => simpa [Join] using ha
  | cons b rest => simp [Join, ha]

theorem targetKeywords_ne_nil : ∀ k ∈ targetKeywords, k ≠ [] := by
  intro k hk
  simp only [targetKeywords, List.mem_cons, List.mem_singleton, List.not_mem_nil, or_false] at hk
  rcases hk with rfl | rfl | rfl | rfl <;> simp

theorem targetKeywords_nodup : targetKeywords.Nodup := by decide

theorem Join_foundKeywords_ne_nil (caseTable : Char → Char) (text sep : GoString)
    (h : foundKeywords caseTable text ≠ []) : Join (foundKeywords caseTable text) sep ≠ [] := by
  rw [foundKeywords_eq_filter] at h ⊢
  cases hf : targetKeywords.filter (fun k => decide (k <:+: text)) with
  | nil => exact absurd hf h
  | cons a rest =>
    apply Join_ne_nil
    apply targetKeywords_ne_nil
    have : a ∈ targetKeywords.filter (fun k => decide (k <:+: text)) := by simp [hf]
    exact (List.mem_filter.mp this).1

/-- C1: after `CheckKeywords`, `Keywords` is the comma-join of exactly the vocabulary
keywords that occur in the lower-cased `Title + " " + Description + " " + Company`, in
vocabulary order and without repetition; it is empty when none occurs.  Lower-casing
the concatenation is the same as concatenating the lower-cased fields. -/
theorem checkKeywords_keywords (caseTable : Char → Char) (j : Job) :
    (j.CheckKeywords caseTable).Keywords =
        Join (targetKeywords.filter (fun k => decide (k <:+:
          ToLower caseTable (j.Title ++ " ".toList ++ j.Description ++ " ".toList ++ j.Company))))
          ",".toList
      ∧ (targetKeywords.filter (fun k => decide (k <:+:
          ToLower caseTable (j.Title ++ " ".toList ++ j.Description ++ " ".toList ++ j.Company)))).Nodup
      ∧ ((∀ k ∈ targetKeywords, ¬ k <:+:
          ToLower caseTable (j.Title ++ " ".toList ++ j.Description ++ " ".toList ++ j.Company)) →
          (j.CheckKeywords caseTable).Keywords = [])
      ∧ ToLower caseTable (j.Title ++ " ".toList ++ j.Description ++ " ".toList ++ j.Company)
          = ToLower caseTable j.Title ++ " ".toList ++ ToLower caseTable j.Description
              ++ " ".toList ++ ToLower caseTable j.Company := by
  have hkw : (j.CheckKeywords caseTable).Keywords =
        Join (targetKeywords.filter (fun k => decide (k <:+:
          ToLower caseTable (j.Title ++ " ".toList ++ j.Description ++ " ".toList ++ j.Company))))
          ",".toList := by
    unfold Job.CheckKeywords
    simp only [foundKeywords_eq_filter, searchText]
    split
    · rfl
    · next h =>
      have : (targetKeywords.filter (fun k => decide (k <:+:
          ToLower caseTable (j.Title ++ " ".toList ++ j.Description ++ " ".toList ++ j.Company)))) = [] := by
        apply List.length_eq_zero.mp
        omega
      rw [this]
      rfl
  refine ⟨hkw, targetKeywords_nodup.filter _, ?_, ?_⟩
  swap
  · simp only [ToLower, List.map_append]
    rfl
  intro hnone
  rw [hkw]
  have : (targetKeywords.filter (fun k => decide (k <:+:
      ToLower caseTable (j.Title ++ " ".toList ++ j.Description ++ " ".toList ++ j.Company)))) = [] := by
    rw [List.filter_eq_nil_iff]
    intro k hk
    simpa using hnone k hk
  rw [this]
  rfl

theorem hasKeywords_iff_keywords_ne_nil (caseTable : Char → Char) (j : Job) :
    (j.CheckKeywords caseTable).HasKeywords = true ↔ (j.CheckKeywords caseTable).Keywords ≠ [] := by
  unfold Job.CheckKeywords
  simp only []
  split
  · next h =>
    simp only [true_iff]
    apply Join_foundKeywords_ne_nil
    intro h0
    rw [h0] at h
    simp at h
  · simp

/-- C2: after `CheckKeywords`, whatever the fields held before, `HasKeywords` is true
exactly when `Keywords` is a non-empty string. -/
theorem checkKeywords_hasKeywords_iff (caseTable : Char → Char) (j : Job) :
    (j.CheckKeywords caseTable).HasKeywords = true ↔ (j.CheckKeywords caseTable).Keywords ≠ [] :=
  hasKeywords_iff_keywords_ne_nil caseTable j

theorem checkKeywords_hasKeywords_eq (caseTable : Char → Char) (j : Job) :
    (j.CheckKeywords caseTable).HasKeywords =
      decide (∃ k ∈ targetKeywords, k <:+:
        ToLower caseTable (j.Title ++ " ".toList ++ j.Description ++ " ".toList ++ j.Company)) := by
  unfold Job.CheckKeywords
  simp only [foundKeywords_eq_filter, searchText]
  split
  · next h =>
    have hpos := List.length_pos.mp h
    obtain ⟨k, hk⟩ := List.exists_mem_of_ne_nil _ hpos
    rw [List.mem_filter] at hk
    symm
    simp only [decide_eq_true_eq]
    exact ⟨k, hk.1, by simpa using hk.2⟩
  · next h =>
    have hnil : (targetKeywords.filter (fun k => decide (k <:+:
        ToLower caseTable (j.Title ++ " ".toList ++ j.Description ++ " ".toList ++ j.Company)))) = [] := by
      apply List.length_eq_zero.mp
      omega
    rw [List.filter_eq_nil_iff] at hnil
    symm
    simp only [decide_eq_false_iff_not]
    rintro ⟨k, hk, hin⟩
    exact hnil k hk (by simpa using hin)

theorem filterJobs_eq_filter_map (caseTable : Char → Char) (allJobs : List Job) :
    filterJobs caseTable allJobs =
      (allJobs.map (Job.CheckKeywords caseTable)).filter (fun j => j.HasKeywords) := by
  unfold filterJobs
  have key : ∀ (l : List Job) (init : List Job),
      l.foldl (fun filteredJobs job =>
          let job := job.CheckKeywords caseTable
          if job.HasKeywords then filteredJobs ++ [job] else filteredJobs) init
        = init ++ (l.map (Job.CheckKeywords caseTable)).filter (fun j => j.HasKeywords) := by
    intro l
    induction l with
    | nil => simp
    | cons a l ih =>
      intro init
      simp only [List.foldl_cons, ih, List.map_cons, List.filter_cons]
      by_cases h : (Job.CheckKeywords caseTable a).HasKeywords = true <;> simp [h]
  simpa using key allJobs []

/-- C10: the filtering step of `ScrapeAndFilter` returns, in the original order, exactly
the fetched jobs in which a vocabulary keyword is found, each classified
(`HasKeywords` true, `Keywords` non-empty) and otherwise unchanged. -/
theorem filterJobs_spec (caseTable : Char → Char) (allJobs : List Job) :
    filterJobs caseTable allJobs =
        (allJobs.filter (fun j => decide (∃ k ∈ targetKeywords, k <:+:
          ToLower caseTable (j.Title ++ " ".toList ++ j.Description ++ " ".toList ++ j.Company)))).map
          (Job.CheckKeywords caseTable)
      ∧ (∀ j ∈ filterJobs caseTable allJobs, j.HasKeywords = true ∧ j.Keywords ≠ [])
      ∧ (∀ j : Job, { j.CheckKeywords caseTable with
            Keywords := j.Keywords, HasKeywords := j.HasKeywords } = j)
      ∧ ScrapeAndFilter caseTable (.ok allJobs) = .ok (filterJobs caseTable allJobs) := by
  refine ⟨?_, ?_, ?_, rfl⟩
  · rw [filterJobs_eq_filter_map, List.filter_map]
    congr 1
    apply List.filter_congr
    intro j _
    simp only [Function.comp]
    rw [checkKeywords_hasKeywords_eq]
  · intro j hj
    rw [filterJobs_eq_filter_map, List.mem_filter, List.mem_map] at hj
    obtain ⟨⟨j0, _, rfl⟩, hhas⟩ := hj
    exact ⟨hhas, (hasKeywords_iff_keywords_ne_nil caseTable j0).mp hhas⟩
  · intro j
    unfold Job.CheckKeywords
    simp only []
    split <;> rfl

/-! ## The scrape report -/

theorem foldl_saveStep (jobs : List (Job × Option GoString)) (st : SaveState) :
    (jobs.foldl (fun st p => saveStep st p.2) st).savedCount =
        st.savedCount + ((jobs.filter (fun p => p.2.isNone)).length : Int)
      ∧ (jobs.foldl (fun st p => saveStep st p.2) st).errors =
        st.errors ++ jobs.filterMap
          (fun p => p.2.filter (fun msg => !containsString msg uniqueFailed)) := by
  induction jobs generalizing st with
  | nil => simp
  | cons p jobs ih =>
    obtain ⟨job, err⟩ := p
    simp only [List.foldl_cons]
    obtain ⟨h1, h2⟩ := ih (saveStep st err)
    rw [h1, h2]
    cases err with
    | none =>
      simp [saveStep]
      omega
    | some msg =>
      by_cases hc : containsString msg uniqueFailed = true
      · simp [saveStep, hc, Option.filter]
      · simp [saveStep, hc, Option.filter]

theorem length_partition3 (jobs : List (Job × Option GoString)) :
    (jobs.length : Int) =
      ((jobs.filter (fun p => p.2.isNone)).length : Int)
      + ((jobs.filter (fun p => p.2.any (fun msg => containsString msg uniqueFailed))).length : Int)
      + ((jobs.filterMap
          (fun p => p.2.filter (fun msg => !containsString msg uniqueFailed))).length : Int) := by
  induction jobs with
  | nil => simp
  | cons p jobs ih =>
    obtain ⟨job, err⟩ := p
    cases err with
    | none =>
      have e1 : Option.filter (fun msg => !containsString msg uniqueFailed) none = none := rfl
      simp only [List.filter_cons, List.filterMap_cons, e1, Option.isNone_none, Option.any_none,
        if_true, List.length_cons, Nat.cast_add, Nat.cast_one]
      simp only [Bool.false_eq_true, if_false]
      omega
    | some msg =>
      by_cases hc : containsString msg uniqueFailed = true
      · have e1 : Option.filter (fun msg => !containsString msg uniqueFailed) (some msg) = none := by
          simp [Option.filter, hc]
        simp only [List.filter_cons, List.filterMap_cons, e1, Option.isNone_some, Option.any_some,
          hc, if_true, List.length_cons, Nat.cast_add, Nat.cast_one]
        simp only [Bool.false_eq_true, if_false]
        omega
      · have e1 : Option.filter (fun msg => !containsString msg uniqueFailed) (some msg)
            = some msg := by
          simp [Option.filter, hc]
        simp only [List.filter_cons, List.filterMap_cons, e1, Option.isNone_some, Option.any_some,
          hc, List.length_cons, Nat.cast_add, Nat.cast_one]
        simp only [Bool.false_eq_true, if_false]
        omega

/-- C8: the report of `scrapeJobs` has `scraped` the number of jobs attempted, `saved`
the number of successful insertions, `errors` the messages of the failed insertions not
classified as duplicates, in order, and `duplicates = scraped - saved - |errors|`, which
is the number of failed insertions classified as duplicates; the three counts add up
to `scraped`, `duplicates` is not negative, and when every failure is classified as a
duplicate the report is `scraped = M`, `saved = M - D`, `duplicates = D`, no errors. -/
theorem scrapeJobs_report (jobs : List (Job × Option GoString)) :
    (scrapeJobs jobs).scraped = jobs.length
      ∧ (scrapeJobs jobs).saved = (jobs.filter (fun p => p.2.isNone)).length
      ∧ (scrapeJobs jobs).errors =
          jobs.filterMap (fun p => p.2.filter (fun msg => !containsString msg uniqueFailed))
      ∧ (scrapeJobs jobs).duplicates =
          (scrapeJobs jobs).scraped - (scrapeJobs jobs).saved - (scrapeJobs jobs).errors.length
      ∧ (scrapeJobs jobs).duplicates =
          (jobs.filter (fun p => p.2.any (fun msg => containsString msg uniqueFailed))).length
      ∧ (scrapeJobs jobs).saved + (scrapeJobs jobs).duplicates + (scrapeJobs jobs).errors.length
          = (scrapeJobs jobs).scraped
      ∧ 0 ≤ (scrapeJobs jobs).duplicates
      ∧ ((∀ p ∈ jobs, ∀ msg, p.2 = some msg → containsString msg uniqueFailed = true) →
          (scrapeJobs jobs).errors = []
          ∧ (scrapeJobs jobs).duplicates = (jobs.filter (fun p => p.2.isSome)).length
          ∧ (scrapeJobs jobs).saved =
              (jobs.length : Int) - ((jobs.filter (fun p => p.2.isSome)).length : Int)) := by
  obtain ⟨hs, he⟩ := foldl_saveStep jobs { savedCount := 0, errors := [] }
  simp only [zero_add, List.nil_append] at hs he
  have hpart := length_partition3 jobs
  have hsaved : (scrapeJobs jobs).saved = (jobs.filter (fun p => p.2.isNone)).length := hs
  have herrs : (scrapeJobs jobs).errors =
      jobs.filterMap (fun p => p.2.filter (fun msg => !containsString msg uniqueFailed)) := he
  have hscr : (scrapeJobs jobs).scraped = jobs.length := rfl
  have hdup : (scrapeJobs jobs).duplicates =
      (scrapeJobs jobs).scraped - (scrapeJobs jobs).saved - (scrapeJobs jobs).errors.length := rfl
  have hdup2 : (scrapeJobs jobs).duplicates =
      (jobs.filter (fun p => p.2.any (fun msg => containsString msg uniqueFailed))).length := by
    rw [hdup, hscr, hsaved, herrs]
    omega
  refine ⟨hscr, hsaved, herrs, hdup, hdup2, by omega, by omega, ?_⟩
  intro hall
  have hany : jobs.filter (fun p => p.2.any (fun msg => containsString msg uniqueFailed))
      = jobs.filter (fun p => p.2.isSome) := by
    apply List.filter_congr
    intro p hp
    cases hp2 : p.2 with
    | none => rfl
    | some msg => simpa using hall p hp msg hp2
  have herr0 : jobs.filterMap
      (fun p => p.2.filter (fun msg => !containsString msg uniqueFailed)) = [] := by
    rw [List.filterMap_eq_nil_iff]
    intro p hp
    cases hp2 : p.2 with
    | none => rfl
    | some msg => simp [Option.filter, hall p hp msg hp2]
  rw [hany] at hdup2
  refine ⟨by rw [herrs, herr0], hdup2, ?_⟩
  rw [herrs, herr0] at hdup
  simp only [List.length_nil, Nat.cast_zero, sub_zero] at hdup
  omega

/-! ## Pagination -/

theorem effectiveLimit_range (limit : Int) :
    1 ≤ effectiveLimit limit ∧ effectiveLimit limit ≤ 100 := by
  unfold effectiveLimit
  split <;> omega

theorem wrapInt64_of_range (x : Int) (h0 : -(2 ^ 63) ≤ x) (h1 : x < 2 ^ 63) : wrapInt64 x = x := by
  unfold wrapInt64
  omega

theorem pages_eq_of_fits (total limit : Int) (h0 : 0 ≤ total)
    (hfit : total + effectiveLimit limit - 1 < 2 ^ 63) :
    pages total limit = some ((total + effectiveLimit limit - 1) / effectiveLimit limit) := by
  obtain ⟨hl1, hl100⟩ := effectiveLimit_range limit
  unfold pages
  simp only []
  rw [if_neg (by omega)]
  have hq0 : 0 ≤ (total + effectiveLimit limit - 1) / effectiveLimit limit :=
    Int.ediv_nonneg (by omega) (by omega)
  have hqle : (total + effectiveLimit limit - 1) / effectiveLimit limit
      ≤ total + effectiveLimit limit - 1 :=
    Int.ediv_le_self _ (by omega)
  have hsum : wrapInt64 (wrapInt64 (total + effectiveLimit limit) - 1)
      = total + effectiveLimit limit - 1 := by
    unfold wrapInt64
    omega
  rw [hsum]
  rw [Int.tdiv_eq_ediv (by omega) (by omega)]
  rw [wrapInt64_of_range _ (by omega) (by omega)]

/-- C9 (as amended): for every `total` with `0 ≤ total` and `total + L - 1` within
`int64`, where `L` is the requested limit when it lies in 1..100 and 20 otherwise,
the division is not by zero and `pages` is the least `p ≥ 0` with `p * L ≥ total`;
`total = 45`, `limit = 20` gives 3 pages and `total = 0`, `limit = 20` gives 0. -/
theorem pages_is_ceiling (total limit : Int) (h0 : 0 ≤ total)
    (hfit : total + effectiveLimit limit - 1 < 2 ^ 63) :
    (1 ≤ limit ∧ limit ≤ 100 → effectiveLimit limit = limit)
      ∧ (¬ (1 ≤ limit ∧ limit ≤ 100) → effectiveLimit limit = 20)
      ∧ effectiveLimit limit ≠ 0
      ∧ (∃ p, pages total limit = some p ∧ 0 ≤ p ∧ total ≤ p * effectiveLimit limit
          ∧ ∀ q, 0 ≤ q → total ≤ q * effectiveLimit limit → p ≤ q)
      ∧ pages 45 20 = some 3 ∧ pages 0 20 = some 0 := by
  obtain ⟨hl1, hl100⟩ := effectiveLimit_range limit
  refine ⟨?_, ?_, by omega, ?_, by decide, by decide⟩
  · intro h
    unfold effectiveLimit
    rw [if_neg (by omega)]
  · intro h
    unfold effectiveLimit
    rw [if_pos (by omega)]
  · refine ⟨_, pages_eq_of_fits total limit h0 hfit, ?_, ?_, ?_⟩
    · exact Int.ediv_nonneg (by omega) (by omega)
    · have := Int.lt_ediv_add_one_mul_self (total + effectiveLimit limit - 1)
        (show 0 < effectiveLimit limit by omega)
      rw [Int.add_mul, Int.one_mul] at this
      omega
    · intro q _ hq
      have : (total + effectiveLimit limit - 1) / effectiveLimit limit < q + 1 := by
        apply Int.ediv_lt_of_lt_mul (by omega)
        rw [Int.add_mul, Int.one_mul]
        omega
      omega

theorem pages_is_ceiling_witness :
    (0 : Int) ≤ 45 ∧ (45 : Int) + effectiveLimit 20 - 1 < 2 ^ 63
      ∧ pages 45 20 = some 3 ∧ pages 0 20 = some 0
      ∧ ∃ p, pages 45 20 = some p ∧ 0 ≤ p ∧ (45 : Int) ≤ p * effectiveLimit 20
          ∧ ∀ q, 0 ≤ q → (45 : Int) ≤ q * effectiveLimit 20 → p ≤ q :=
  ⟨by decide, by decide, by decide, by decide,
    (pages_is_ceiling 45 20 (by decide) (by decide)).2.2.2.1⟩

/-- C9 (as stated) fails at the top of the `int64` range: with `total = 2^63 - 1` and
`limit = 20` the sum `total + 20 - 1` wraps around and `pages` is negative, while the
ceiling of `total / 20` is `461168601842738791`. -/
theorem pages_not_ceiling_at_max :
    pages 9223372036854775807 20 = some (-461168601842738789)
      ∧ ¬ (∃ p, pages 9223372036854775807 20 = some p ∧ 0 ≤ p
            ∧ (9223372036854775807 : Int) ≤ p * effectiveLimit 20) := by
  refine ⟨by decide, ?_⟩
  rintro ⟨p, hp, hp0, _⟩
  have h : pages 9223372036854775807 20 = some (-461168601842738789) := by decide
  rw [h] at hp
  injection hp with hp
  omega

/-! ## The text normalizer -/

theorem Index_add_length_le (s substr : GoString) (h : 0 ≤ Index s substr) :
    Index s substr + substr.length ≤ s.length := by
  induction s with
  | nil =>
    unfold Index at h ⊢
    by_cases hs : substr = []
    · simp [hs]
    · simp [hs] at h
  | cons c cs ih =>
    unfold Index at h ⊢
    by_cases hp : HasPrefix (c :: cs) substr = true
    · simp only [hp, if_true]
      simp only [HasPrefix, List.isPrefixOf_iff_prefix] at hp
      have := hp.length_le
      simp only [List.length_cons] at this ⊢
      omega
    · simp only [hp, Bool.false_eq_true, if_false] at h ⊢
      by_cases hr : Index cs substr < 0
      · simp [hr] at h
      · simp only [hr, if_false] at h ⊢
        have := ih (by omega)
        simp only [List.length_cons]
        push_cast
        omega

theorem Index_split (s substr : GoString) (h : 0 ≤ Index s substr) :
    s = s.take (Index s substr).toNat ++ substr
          ++ s.drop ((Index s substr).toNat + substr.length) := by
  induction s with
  | nil =>
    unfold Index at h ⊢
    by_cases hs : substr = []
    · simp [hs]
    · simp [hs] at h
  | cons c cs ih =>
    unfold Index at h ⊢
    by_cases hp : HasPrefix (c :: cs) substr = true
    · simp only [hp, if_true]
      simp only [HasPrefix, List.isPrefixOf_iff_prefix] at hp
      obtain ⟨t, ht⟩ := hp
      simp only [Int.toNat_zero, List.take_zero, List.nil_append, zero_add]
      rw [← ht]
      simp
    · simp only [hp, Bool.false_eq_true, if_false] at h ⊢
      by_cases hr : Index cs substr < 0
      · simp [hr] at h
      · simp only [hr, if_false] at h ⊢
        have h0 : 0 ≤ Index cs substr := by omega
        have e : (Index cs substr + 1).toNat = (Index cs substr).toNat + 1 := by omega
        rw [e]
        have := ih h0
        simp only [List.take_succ_cons, List.cons_append, Nat.add_right_comm _ 1,
          List.drop_succ_cons]
        rw [← this]

theorem replaceFrom_length_le (old new : GoString) (hlen : new.length ≤ old.length) (n : Nat)
    (s : GoString) : (replaceFrom old new n s).length ≤ s.length := by
  induction n generalizing s with
  | zero => simp [replaceFrom]
  | succ n ih =>
    unfold replaceFrom
    simp only []
    split
    · exact le_rfl
    · next hj =>
      have h0 : 0 ≤ Index s old := by omega
      have hb := Index_add_length_le s old h0
      have := ih (s.drop ((Index s old).toNat + old.length))
      simp only [List.length_append, List.length_take, List.length_drop] at this ⊢
      omega

theorem ReplaceAll_length_le (s old new : GoString) (hlen : new.length ≤ old.length) :
    (ReplaceAll s old new).length ≤ s.length := by
  unfold ReplaceAll
  split
  · exact le_rfl
  · next hne =>
    split
    · next ho =>
      subst ho
      have : new = [] := List.length_eq_zero.mp (by simpa using hlen)
      exact absurd this.symm hne
    · exact replaceFrom_length_le old new hlen _ s

theorem replaceFrom_of_absent (old new : GoString) (n : Nat) (s : GoString)
    (h : ¬ old <:+: s) : replaceFrom old new n s = s := by
  cases n with
  | zero => rfl
  | succ n =>
    unfold replaceFrom
    have : Index s old < 0 := by
      have := (Index_nonneg_iff s old).not.mpr h
      omega
    simp [this]

theorem ReplaceAll_of_absent (s old new : GoString) (hold : old ≠ [])
    (h : ¬ old <:+: s) : ReplaceAll s old new = s := by
  unfold ReplaceAll
  by_cases e : old = new
  · rw [if_pos e]
  · rw [if_neg e, if_neg hold]
    exact replaceFrom_of_absent old new _ s h

theorem replaceFrom_filter (p : Char → Bool) (old new : GoString)
    (ho : old.filter p = []) (hn : new.filter p = []) (n : Nat) (s : GoString) :
    (replaceFrom old new n s).filter p = s.filter p := by
  induction n generalizing s with
  | zero => rfl
  | succ n ih =>
    unfold replaceFrom
    simp only []
    split
    · rfl
    · next hj =>
      have h0 : 0 ≤ Index s old := by omega
      have hs := Index_split s old h0
      conv_rhs => rw [hs]
      simp only [List.filter_append, ih, ho, hn, List.append_nil]

theorem ReplaceAll_filter (p : Char → Bool) (s old new : GoString) (hold : old ≠ [])
    (ho : old.filter p = []) (hn : new.filter p = []) :
    (ReplaceAll s old new).filter p = s.filter p := by
  unfold ReplaceAll
  by_cases e : old = new
  · rw [if_pos e]
  · rw [if_neg e, if_neg hold]
    exact replaceFrom_filter p old new ho hn _ s
theorem slice_upto (s : GoString) (hi : Int) (h0 : 0 ≤ hi) (h1 : hi ≤ (s.length : Int)) :
    slice s 0 hi = some (s.take hi.toNat) := by
  unfold slice
  rw [if_pos ⟨le_rfl, h0, h1⟩]
  simp

theorem slice_from (s : GoString) (lo : Int) (h0 : 0 ≤ lo) (h1 : lo ≤ (s.length : Int)) :
    slice s lo (s.length : Int) = some (s.drop lo.toNat) := by
  unfold slice
  rw [if_pos ⟨h0, h1, le_rfl⟩]
  simp

theorem stripStep_eq (d : GoString) :
    stripStep d =
      if 0 ≤ Index d ['<'] ∧ Index d ['<'] < Index d ['>'] then
        .ok (some (d.take (Index d ['<']).toNat ++ d.drop ((Index d ['>']).toNat + 1)))
      else .ok none := by
  unfold stripStep
  simp only [Contains, Bool.and_eq_true, decide_eq_true_eq]
  by_cases ha : 0 ≤ Index d ['<']
  · by_cases hab : Index d ['<'] < Index d ['>']
    · have hb : 0 ≤ Index d ['>'] := by omega
      have hbl := Index_add_length_le d ['>'] hb
      simp only [List.length_singleton, Nat.cast_one] at hbl
      rw [if_pos ⟨ha, hb⟩, if_pos hab, if_pos ⟨ha, hab⟩]
      rw [slice_upto d _ ha (by omega), slice_from d _ (by omega) (by omega)]
      have e : (Index d ['>'] + 1).toNat = (Index d ['>']).toNat + 1 := by omega
      rw [e]
    · simp only [hab, and_false, if_false]
      split <;> rfl
  · simp only [ha, false_and, if_false]

theorem stripStep_ne_error (d : GoString) (e : Fault) : stripStep d ≠ .error e := by
  rw [stripStep_eq]
  split <;> simp

theorem stripStep_shortens (d d' : GoString) (h : stripStep d = .ok (some d')) :
    d'.length < d.length := by
  rw [stripStep_eq] at h
  split at h
  · next hc =>
    have hb : 0 ≤ Index d ['>'] := by omega
    have hbl := Index_add_length_le d ['>'] hb
    simp only [List.length_singleton, Nat.cast_one] at hbl
    injection h with h
    injection h with h
    subst h
    simp only [List.length_append, List.length_take, List.length_drop]
    omega
  · simp at h

theorem stripTags_of_length_le (fuel : Nat) (d : GoString) (h : d.length ≤ fuel) :
    ∃ r, stripTags fuel d = .ok r ∧ r.length ≤ d.length ∧ stripStep r = .ok none := by
  induction fuel generalizing d with
  | zero =>
    unfold stripTags
    cases hs : stripStep d with
    | error e => exact absurd hs (stripStep_ne_error d e)
    | ok o =>
      cases o with
      | none => exact ⟨d, rfl, le_rfl, hs⟩
      | some d' =>
        have := stripStep_shortens d d' hs
        omega
  | succ n ih =>
    unfold stripTags
    cases hs : stripStep d with
    | error e => exact absurd hs (stripStep_ne_error d e)
    | ok o =>
      cases o with
      | none => exact ⟨d, rfl, le_rfl, hs⟩
      | some d' =>
        have hlt := stripStep_shortens d d' hs
        obtain ⟨r, hr, hrl, hex⟩ := ih d' (by omega)
        exact ⟨r, hr, by omega, hex⟩

theorem stripTags_exit (fuel : Nat) (d r : GoString) (h : stripTags fuel d = .ok r) :
    stripStep r = .ok none := by
  induction fuel generalizing d with
  | zero =>
    unfold stripTags at h
    cases hs : stripStep d with
    | error e => exact absurd hs (stripStep_ne_error d e)
    | ok o =>
      rw [hs] at h
      cases o with
      | none =>
        injection h with h
        subst h
        exact hs
      | some d' => simp at h
  | succ n ih =>
    unfold stripTags at h
    cases hs : stripStep d with
    | error e => exact absurd hs (stripStep_ne_error d e)
    | ok o =>
      rw [hs] at h
      cases o with
      | none =>
        injection h with h
        subst h
        exact hs
      | some d' => exact ih d' h

theorem stripTags_of_exit (fuel : Nat) (d : GoString) (h : stripStep d = .ok none) :
    stripTags fuel d = .ok d := by
  unfold stripTags
  rw [h]

theorem stripTags_mono (fuel fuel' : Nat) (d r : GoString) (hle : fuel ≤ fuel')
    (h : stripTags fuel d = .ok r) : stripTags fuel' d = .ok r := by
  induction fuel generalizing d fuel' with
  | zero =>
    unfold stripTags at h
    cases hs : stripStep d with
    | error e => exact absurd hs (stripStep_ne_error d e)
    | ok o =>
      rw [hs] at h
      cases o with
      | none =>
        rw [stripTags_of_exit fuel' d hs]
        exact h
      | some d' => simp at h
  | succ n ih =>
    unfold stripTags at h
    cases hs : stripStep d with
    | error e => exact absurd hs (stripStep_ne_error d e)
    | ok o =>
      rw [hs] at h
      cases o with
      | none =>
        rw [stripTags_of_exit fuel' d hs]
        exact h
      | some d' =>
        cases fuel' with
        | zero => omega
        | succ m =>
          have := ih m d' (by omega) h
          unfold stripTags
          rw [hs]
          exact this

theorem replaceCommonTags_length_le (d : GoString) : (replaceCommonTags d).length ≤ d.length := by
  unfold replaceCommonTags
  simp only []
  have h1 := ReplaceAll_length_le d "<br>".toList "\n".toList (by decide)
  have h2 := ReplaceAll_length_le (ReplaceAll d "<br>".toList "\n".toList)
    "<br/>".toList "\n".toList (by decide)
  have h3 := ReplaceAll_length_le
    (ReplaceAll (ReplaceAll d "<br>".toList "\n".toList) "<br/>".toList "\n".toList)
    "<p>".toList "".toList (by decide)
  have h4 := ReplaceAll_length_le
    (ReplaceAll (ReplaceAll (ReplaceAll d "<br>".toList "\n".toList) "<br/>".toList "\n".toList)
      "<p>".toList "".toList) "</p>".toList "\n".toList (by decide)
  have h5 := ReplaceAll_length_le
    (ReplaceAll (ReplaceAll (ReplaceAll (ReplaceAll d "<br>".toList "\n".toList)
      "<br/>".toList "\n".toList) "<p>".toList "".toList) "</p>".toList "\n".toList)
    "<div>".toList "".toList (by decide)
  have h6 := ReplaceAll_length_le
    (ReplaceAll (ReplaceAll (ReplaceAll (ReplaceAll (ReplaceAll d "<br>".toList "\n".toList)
      "<br/>".toList "\n".toList) "<p>".toList "".toList) "</p>".toList "\n".toList)
      "<div>".toList "".toList) "</div>".toList "\n".toList (by decide)
  omega

theorem cleanDescription_eq (fuel : Nat) (x : GoString) (h : x.length ≤ fuel) :
    ∃ r, stripTags fuel (replaceCommonTags x) = .ok r ∧ stripStep r = .ok none
      ∧ cleanDescription fuel x
          = .ok (TrimSpace (ReplaceAll r "\n\n\n".toList "\n\n".toList)) := by
  have hl := replaceCommonTags_length_le x
  obtain ⟨r, hr, _, hex⟩ := stripTags_of_length_le fuel (replaceCommonTags x) (by omega)
  refine ⟨r, hr, hex, ?_⟩
  unfold cleanDescription
  rw [hr]

/-- C4: `cleanDescription` is total.  One round of the tag-stripping loop never takes a
slice out of range; a round that does not leave the loop strictly shortens the string;
hence the loop terminates, and with fuel for at least as many rounds as the input has
characters the function returns a string, the same for every such amount of fuel. -/
theorem cleanDescription_total (x : GoString) :
    (∀ d : GoString, ∀ e : Fault, stripStep d ≠ .error e)
      ∧ (∀ d d' : GoString, stripStep d = .ok (some d') → d'.length < d.length)
      ∧ ∃ y, ∀ fuel, x.length ≤ fuel → cleanDescription fuel x = .ok y := by
  refine ⟨stripStep_ne_error, stripStep_shortens, ?_⟩
  obtain ⟨r, hr, _, hc⟩ := cleanDescription_eq x.length x le_rfl
  refine ⟨TrimSpace (ReplaceAll r "\n\n\n".toList "\n\n".toList), ?_⟩
  intro fuel hfuel
  unfold cleanDescription
  rw [stripTags_mono x.length fuel _ r hfuel hr]
theorem Index_singleton_cons (x c : Char) (xs : GoString) :
    Index (x :: xs) [c] =
      if x = c then 0 else if Index xs [c] < 0 then -1 else Index xs [c] + 1 := by
  conv_lhs => unfold Index
  by_cases h : x = c
  · subst h
    simp [HasPrefix]
  · have : HasPrefix (x :: xs) [c] = false := by
      simp [HasPrefix, List.isPrefixOf, Ne.symm h]
    simp [this, h]

theorem Index_singleton_nonneg_iff (s : GoString) (c : Char) : 0 ≤ Index s [c] ↔ c ∈ s := by
  rw [Index_nonneg_iff]
  constructor
  · intro h
    exact h.subset (List.mem_singleton_self c)
  · intro h
    obtain ⟨a, b, hab⟩ := List.append_of_mem h
    exact ⟨a, b, by simp [hab]⟩

theorem mem_brackets_iff (s : GoString) (c : Char) (hc : isBracket c = true) :
    c ∈ brackets s ↔ c ∈ s := by
  simp [brackets, List.mem_filter, hc]

theorem stripStep_exit_iff (s : GoString) : stripStep s = .ok none ↔ exitShape (brackets s) := by
  rw [stripStep_eq]
  have key : ¬ (0 ≤ Index s ['<'] ∧ Index s ['<'] < Index s ['>']) ↔ exitShape (brackets s) := by
    induction s with
    | nil =>
      simp [Index, brackets, exitShape]
    | cons x xs ih =>
      rw [Index_singleton_cons, Index_singleton_cons]
      by_cases h1 : x = '<'
      · subst h1
        have hb : brackets ('<' :: xs) = '<' :: brackets xs := by
          simp [brackets, isBracket]
        rw [hb]
        simp only [if_true, le_refl, true_and, exitShape, List.cons.injEq, true_and,
          forall_eq', (by decide : ¬ '<' = '>'), if_false]
        rw [mem_brackets_iff xs '>' (by decide), ← Index_singleton_nonneg_iff]
        have := Index_ge_neg_one xs ['>']
        split <;> omega
      · by_cases h2 : x = '>'
        · subst h2
          have hb : brackets ('>' :: xs) = '>' :: brackets xs := by
            simp [brackets, isBracket]
          rw [hb]
          simp only [if_true, (by decide : ¬ '>' = '<'), if_false, exitShape, List.cons.injEq,
            false_and, false_implies, implies_true, iff_true]
          split <;> omega
        · have hb : brackets (x :: xs) = brackets xs := by
            simp [brackets, isBracket, h1, h2]
          rw [hb, ← ih]
          simp only [h1, h2, if_false]
          have := Index_ge_neg_one xs ['<']
          have := Index_ge_neg_one xs ['>']
          split <;> split <;> constructor <;> intro h <;> omega
  rw [← key]
  split
  · next h => simp [h]
  · next h => simp [h]

theorem exitShape_positional (y : GoString) (h : exitShape (brackets y)) :
    ∀ i j, i < j → y[i]? = some '<' → y[j]? = some '>' → ∃ k : Nat, k < i ∧ y[k]? = some '>' := by
  induction y with
  | nil => intro i j _ hi; simp at hi
  | cons x xs ih =>
    intro i j hij hi hj
    by_cases h2 : x = '>'
    · subst h2
      cases i with
      | zero => simp at hi
      | succ i => exact ⟨0, by omega, by simp⟩
    · by_cases h1 : x = '<'
      · subst h1
        exfalso
        have hb : brackets ('<' :: xs) = '<' :: brackets xs := by
          simp [brackets, isBracket]
        rw [hb] at h
        have hn := h (brackets xs) rfl
        rw [mem_brackets_iff xs '>' (by decide)] at hn
        cases j with
        | zero => omega
        | succ j =>
          simp only [List.getElem?_cons_succ] at hj
          exact hn (List.getElem?_mem hj)
      · have hb : brackets (x :: xs) = brackets xs := by
          simp [brackets, isBracket, h1, h2]
        rw [hb] at h
        cases i with
        | zero =>
          simp only [List.getElem?_cons_zero, Option.some.injEq] at hi
          exact absurd hi h1
        | succ i =>
          cases j with
          | zero => omega
          | succ j =>
            simp only [List.getElem?_cons_succ] at hi hj
            obtain ⟨k, hk, hk2⟩ := ih h i j (by omega) hi hj
            exact ⟨k + 1, by omega, by simpa using hk2⟩

theorem filter_dropWhile_of_disjoint (p q : Char → Bool) (hpq : ∀ c, q c = true → p c = false)
    (l : GoString) : (l.dropWhile q).filter p = l.filter p := by
  induction l with
  | nil => rfl
  | cons x xs ih =>
    by_cases hq : q x = true
    · rw [List.dropWhile_cons_of_pos hq, ih, List.filter_cons_of_neg (by simp [hpq x hq])]
    · rw [List.dropWhile_cons_of_neg hq]

theorem IsSpace_not_bracket (c : Char) (h : IsSpace c = true) : isBracket c = false := by
  by_contra hb
  simp only [Bool.not_eq_false, isBracket, Bool.or_eq_true, beq_iff_eq] at hb
  rcases hb with rfl | rfl
  · exact absurd h (by decide)
  · exact absurd h (by decide)

theorem brackets_TrimSpace (s : GoString) : brackets (TrimSpace s) = brackets s := by
  unfold brackets TrimSpace
  rw [List.filter_reverse, filter_dropWhile_of_disjoint _ _ IsSpace_not_bracket,
    List.filter_reverse, List.reverse_reverse,
    filter_dropWhile_of_disjoint _ _ IsSpace_not_bracket]

theorem brackets_collapse (s : GoString) :
    brackets (ReplaceAll s "\n\n\n".toList "\n\n".toList) = brackets s := by
  unfold brackets
  exact ReplaceAll_filter isBracket s _ _ (by decide) (by decide) (by decide)

theorem TrimSpace_idempotent (z : GoString) : TrimSpace (TrimSpace z) = TrimSpace z := by
  have e : ∀ s : GoString, TrimSpace s = (s.dropWhile IsSpace).rdropWhile IsSpace := fun _ => rfl
  have hd : (TrimSpace z).dropWhile IsSpace = TrimSpace z := by
    rw [List.dropWhile_eq_self_iff]
    intro hl
    have hpre : TrimSpace z <+: z.dropWhile IsSpace := by
      rw [e]
      exact List.rdropWhile_prefix IsSpace _
    obtain ⟨t, ht⟩ := hpre
    have hl2 : 0 < (z.dropWhile IsSpace).length := by
      rw [← ht, List.length_append]
      omega
    have := List.dropWhile_get_zero_not (p := IsSpace) z hl2
    have e2 : (z.dropWhile IsSpace).get ⟨0, hl2⟩ = (TrimSpace z).get ⟨0, hl⟩ := by
      simp only [List.get_eq_getElem]
      simp only [← ht]
      rw [List.getElem_append_left]
    rw [← e2]
    exact this
  conv_lhs => rw [e, hd, e]
  rw [List.rdropWhile_idempotent]
  rfl

theorem cleanDescription_ok_inv (fuel : Nat) (x y : GoString)
    (h : cleanDescription fuel x = .ok y) :
    ∃ r, stripTags fuel (replaceCommonTags x) = .ok r
      ∧ y = TrimSpace (ReplaceAll r "\n\n\n".toList "\n\n".toList) := by
  unfold cleanDescription at h
  cases hs : stripTags fuel (replaceCommonTags x) with
  | error e => rw [hs] at h; simp at h
  | ok r =>
    rw [hs] at h
    injection h with h
    exact ⟨r, rfl, h.symm⟩

theorem cleanDescription_exitShape (fuel : Nat) (x y : GoString)
    (h : cleanDescription fuel x = .ok y) : exitShape (brackets y) := by
  obtain ⟨r, hr, hy⟩ := cleanDescription_ok_inv fuel x y h
  rw [hy, brackets_TrimSpace, brackets_collapse, ← stripStep_exit_iff]
  exact stripTags_exit fuel _ r hr

theorem cleanDescription_trimmed (fuel : Nat) (x y : GoString)
    (h : cleanDescription fuel x = .ok y) : TrimSpace y = y := by
  obtain ⟨r, _, hy⟩ := cleanDescription_ok_inv fuel x y h
  rw [hy, TrimSpace_idempotent]

theorem replaceCommonTags_of_no_tag (y : GoString)
    (htags : ∀ t ∈ ["<br>".toList, "<br/>".toList, "<p>".toList, "</p>".toList,
      "<div>".toList, "</div>".toList], ¬ t <:+: y) : replaceCommonTags y = y := by
  unfold replaceCommonTags
  simp only []
  rw [ReplaceAll_of_absent y "<br>".toList _ (by decide) (htags _ (by simp)),
    ReplaceAll_of_absent y "<br/>".toList _ (by decide) (htags _ (by simp)),
    ReplaceAll_of_absent y "<p>".toList _ (by decide) (htags _ (by simp)),
    ReplaceAll_of_absent y "</p>".toList _ (by decide) (htags _ (by simp)),
    ReplaceAll_of_absent y "<div>".toList _ (by decide) (htags _ (by simp)),
    ReplaceAll_of_absent y "</div>".toList _ (by decide) (htags _ (by simp))]

/-- What the stripping loop does achieve: with fuel for the input's length
`cleanDescription` returns a string in which every `<` that is followed, later on, by a
`>` is itself preceded by an earlier `>`; so does every string the loop is left with. -/
theorem cleanDescription_no_tag_before_first_gt (fuel : Nat) (x : GoString)
    (hfuel : x.length ≤ fuel) :
    (∃ y, cleanDescription fuel x = .ok y ∧
        ∀ i j : Nat, i < j → y[i]? = some '<' → y[j]? = some '>' →
          ∃ k : Nat, k < i ∧ y[k]? = some '>')
      ∧ (∀ d r : GoString, stripTags fuel d = .ok r →
          ∀ i j : Nat, i < j → r[i]? = some '<' → r[j]? = some '>' →
            ∃ k : Nat, k < i ∧ r[k]? = some '>') := by
  constructor
  · obtain ⟨r, _, _, hc⟩ := cleanDescription_eq fuel x hfuel
    exact ⟨_, hc, exitShape_positional _ (cleanDescription_exitShape fuel x _ hc)⟩
  · intro d r hr
    exact exitShape_positional r ((stripStep_exit_iff r).mp (stripTags_exit fuel d r hr))

/-- C5: the code at `a>b<c>` and at `1 > 0 <b>bold</b>`.  The loop takes the first `>`
of the whole string, not the first one after the `<`; here it comes before the first
`<`, the loop is left at once, and the output keeps its tags: in `a>b<c>` a `<` at
position 3 followed by a `>` at position 5. -/
theorem cleanDescription_keeps_tag :
    cleanDescription 6 "a>b<c>".toList = .ok "a>b<c>".toList
      ∧ ("a>b<c>".toList)[3]? = some '<' ∧ ("a>b<c>".toList)[5]? = some '>'
      ∧ cleanDescription 17 "1 > 0 <b>bold</b>".toList = .ok "1 > 0 <b>bold</b>".toList
      ∧ "<b>".toList <:+: "1 > 0 <b>bold</b>".toList
      ∧ ¬ (∀ (fuel : Nat) (x y : GoString), cleanDescription fuel x = .ok y →
            ∀ i j : Nat, i < j → y[i]? = some '<' → y[j]? ≠ some '>') := by
  refine ⟨rfl, rfl, rfl, rfl, by decide, ?_⟩
  intro hall
  exact hall 6 "a>b<c>".toList "a>b<c>".toList rfl 3 5 (by decide) rfl rfl

/-- A result `y` of `cleanDescription` that contains none of the six literal tags and
no three consecutive newlines is returned unchanged when cleaned again. -/
theorem cleanDescription_fixed_point (fuel : Nat) (x y : GoString)
    (h : cleanDescription fuel x = .ok y)
    (htags : ∀ t ∈ ["<br>".toList, "<br/>".toList, "<p>".toList, "</p>".toList,
      "<div>".toList, "</div>".toList], ¬ t <:+: y)
    (hnl : ¬ "\n\n\n".toList <:+: y) :
    ∀ fuel' : Nat, cleanDescription fuel' y = .ok y := by
  intro fuel'
  have hexit : stripStep y = .ok none :=
    (stripStep_exit_iff y).mpr (cleanDescription_exitShape fuel x y h)
  unfold cleanDescription
  rw [replaceCommonTags_of_no_tag y htags, stripTags_of_exit fuel' y hexit]
  simp only []
  rw [ReplaceAll_of_absent y _ _ (by decide) hnl, cleanDescription_trimmed fuel x y h]

/-- C3: the code at `><b<p>r>` and at `a\n\n\n\nb`.  Removing `<p>` creates a `<br>`
after the `<br>` replacement has run, and the loop gives up because a `>` comes first,
so the first input is cleaned to `><br>` and that to `>`; one pass over the newlines
turns four of them into three, and three into two.  Cleaning twice differs from
cleaning once. -/
theorem cleanDescription_not_idempotent :
    cleanDescription 8 "><b<p>r>".toList = .ok "><br>".toList
      ∧ cleanDescription 5 "><br>".toList = .ok ">".toList
      ∧ cleanDescription 6 "a\n\n\n\nb".toList = .ok "a\n\n\nb".toList
      ∧ cleanDescription 5 "a\n\n\nb".toList = .ok "a\n\nb".toList
      ∧ ¬ (∀ (fuel : Nat) (x y : GoString), cleanDescription fuel x = .ok y →
            cleanDescription fuel y = .ok y) := by
  refine ⟨rfl, rfl, rfl, rfl, ?_⟩
  intro hall
  have h := hall 8 "><b<p>r>".toList "><br>".toList rfl
  have h2 : cleanDescription 8 "><br>".toList = .ok ">".toList := rfl
  rw [h2] at h
  injection h with h
  exact absurd h (by decide)

/-- C6: the code at `a\n\n\n\nb`.  The single `ReplaceAll` pass replaces the first three
of the four newlines by two and does not look at the result again, so the output has a
run of three newlines. -/
theorem cleanDescription_leaves_three_newlines :
    cleanDescription 6 "x\n\n\n\ny".toList = .ok "x\n\n\ny".toList
      ∧ "\n\n\n".toList <:+: "x\n\n\ny".toList := by
  refine ⟨rfl, by decide⟩

/-- C7: the code at a message that has `UNIQUE constraint failed` in the middle:
`containsString` compares the whole, the start and the end of the message only, so it
answers false and the message is reported as an error, not counted as a duplicate. -/
theorem containsString_misses_inner_occurrence (job : Job) :
    uniqueFailed <:+: "constraint failed: UNIQUE constraint failed: jobs.url (2067)".toList
      ∧ containsString
          "constraint failed: UNIQUE constraint failed: jobs.url (2067)".toList uniqueFailed
          = false
      ∧ (scrapeJobs [(job,
          some "constraint failed: UNIQUE constraint failed: jobs.url (2067)".toList)]).errors
          = ["constraint failed: UNIQUE constraint failed: jobs.url (2067)".toList]
      ∧ (scrapeJobs [(job,
          some "constraint failed: UNIQUE constraint failed: jobs.url (2067)".toList)]).duplicates
          = 0 := by
  refine ⟨by decide, by decide, ?_, ?_⟩
  · rfl
  · rfl

end JobHunter
